import Mathlib

/-
Shallow embedding of src/server.js (low-fi-station), the GET /albums pipeline:
grouping S3 keys into albums/tracks, per-request randomization, and error
handling.  JS strings are modeled as lists of characters (`Str`).  The JS
`Math.random()` / `Date.now()` sources are modeled as arbitrary draw functions
supplied per consumption site; a draw "uniform in [0,b)" is modeled as an
arbitrary natural reduced mod b.  The grouping object `albumMap = {}` is
modeled as an association list in insertion order (the JS `__proto__`
prototype-chain quirk of object property access is out of scope), and
`Object.values` applies the ECMAScript own-property key order: array-index
keys ascending first, then the remaining string keys in insertion order.
`Array.prototype.sort` with comparator `(a, b) => a.order - b.order` is a
stable ascending sort by `order` (ES2019 stability), modeled by a stable
insertion sort.
-/

abbrev Str := List Char

/-- JS whitespace: the characters matched by the regex class `\s` and removed
by `String.prototype.trim` (WhiteSpace plus LineTerminator). -/
def jsSpace (c : Char) : Bool :=
  c.toNat = 9 || c.toNat = 10 || c.toNat = 11 || c.toNat = 12 || c.toNat = 13 ||
  c.toNat = 32 || c.toNat = 160 || c.toNat = 5760 ||
  (8192 ≤ c.toNat && c.toNat ≤ 8202) ||
  c.toNat = 8232 || c.toNat = 8233 || c.toNat = 8239 || c.toNat = 8287 ||
  c.toNat = 12288 || c.toNat = 65279

/-- JS line terminators, the characters the regex `.` does not match. -/
def lineTerm (c : Char) : Bool :=
  c.toNat = 10 || c.toNat = 13 || c.toNat = 8232 || c.toNat = 8233

/-- The regex class `\d`. -/
def jsDigit (c : Char) : Bool :=
  48 ≤ c.toNat && c.toNat ≤ 57

/-- `String.prototype.trim`. -/
def jsTrim (s : Str) : Str :=
  ((s.dropWhile jsSpace).reverse.dropWhile jsSpace).reverse

/-- `parseInt(digits, 10)` on a string of decimal digits, exact. -/
def natOfDigits (s : Str) : Nat :=
  s.foldl (fun a c => 10 * a + (c.toNat - 48)) 0

/-- A JS number rendered into a template literal. -/
def natStr (n : Nat) : Str := (Nat.repr n).data

/-- `albumInfo.replace(/\s/g, '-')`. -/
def spaceDash (s : Str) : Str :=
  s.map (fun c => if jsSpace c then '-' else c)

/-- Split a string at the first (leftmost) occurrence of `pat`: the text
before and the text after the occurrence, or `none` when `pat` does not
occur. -/
def splitFirst (pat : Str) : Str → Option (Str × Str)
  | [] => if pat = [] then some ([], []) else none
  | c :: rest =>
    if pat.isPrefixOf (c :: rest) then some ([], List.drop pat.length (c :: rest))
    else Option.map (fun p => (c :: p.1, p.2)) (splitFirst pat rest)

/-- `String.prototype.includes`. -/
def jsIncludes (pat s : Str) : Bool := (splitFirst pat s).isSome

/-- Worker for `jsSplit`: repeatedly split off the text before the next
occurrence of `pat` (JS left-to-right, non-overlapping scan). The fuel
only bounds the recursion; `s.length + 1` always suffices. -/
def jsSplitFuel (pat : Str) : Nat → Str → List Str
  | 0, s => [s]
  | fuel + 1, s =>
    match splitFirst pat s with
    | none => [s]
    | some p => p.1 :: jsSplitFuel pat fuel p.2

/-- `String.prototype.split` with a string separator (no limit). -/
def jsSplit (pat s : Str) : List Str :=
  if pat = [] then s.map (fun c => [c]) else jsSplitFuel pat (s.length + 1) s

/-- `s.replace(pat, '')` with a string pattern: remove the first occurrence
of `pat`, if any. -/
def removeFirst (pat : Str) : Str → Str
  | [] => []
  | c :: rest =>
    if pat.isPrefixOf (c :: rest) then List.drop pat.length (c :: rest)
    else c :: removeFirst pat rest

/-- `trackName.replace(/\.[^/.]+$/, "")`: strip a trailing extension - a final
run of one or more characters other than `.` and `/` preceded by a `.`.
The leftmost match of this end-anchored pattern starts at the last dot. -/
def extStrip (s : Str) : Str :=
  if (s.reverse.dropWhile (fun c => !(c == '.' || c == '/'))).headD ' ' = '.' then
    (if s.reverse.takeWhile (fun c => !(c == '.' || c == '/')) = [] then s
     else (s.reverse.dropWhile (fun c => !(c == '.' || c == '/'))).tail.reverse)
  else s

/-- Position `w` of `t` exists and holds a character `.` can match. -/
def okAt (t : Str) (w : Nat) : Bool :=
  match t.get? w with
  | some c => !lineTerm c
  | none => false

/-- Backtracking of the second `\s*` of `/^(\d+)\s*-\s*(.+)/`: the largest
`w` at most the given bound at which `(.+)` can start matching. -/
def chooseW (t : Str) : Nat → Option Nat
  | 0 => if okAt t 0 then some 0 else none
  | w + 1 => if okAt t (w + 1) then some (w + 1) else chooseW t w

/-- `trackFileName.match(/^(\d+)\s*-\s*(.+)/)`: `some (digits, remainder)`
giving the two capture groups, or `none` when the regex does not match.
`\d+` takes the maximal leading digit run (nothing after it can consume a
digit), the first `\s*` the maximal whitespace run (it must be followed by
`-`, which is not whitespace), and the second `\s*` backtracks from its
maximal run until greedy `(.+)` can match. -/
def trackMatch (s : Str) : Option (Str × Str) :=
  let digits := s.takeWhile jsDigit
  if digits = [] then none
  else
    match (s.dropWhile jsDigit).dropWhile jsSpace with
    | [] => none
    | c :: r3 =>
      if c = '-' then
        match chooseW r3 (r3.takeWhile jsSpace).length with
        | none => none
        | some w => some (digits, (r3.drop w).takeWhile (fun c2 => !lineTerm c2))
      else none

structure Track where
  trackId : Str
  name : Str
  url : Str
  order : Nat
deriving DecidableEq

structure Album where
  albumName : Str
  artist : Str
  tracks : List Track
  coverUrl : Option Str
deriving DecidableEq

abbrev AlbumMap := List (Str × Album)

/-- The configuration the handler reads: S3_FOLDER_PATH, S3_BUCKET_NAME and
CLOUDFRONT_DOMAIN. -/
structure Env where
  folderPath : Str
  bucketName : Str
  cloudFront : Str
deriving DecidableEq

/-- The template `${process.env.CLOUDFRONT_DOMAIN}${item.Key}`. -/
def resolveUrl (e : Env) (key : Str) : Str := e.cloudFront ++ key

/-- `albumMap[albumInfo]` (own-property lookup). -/
def findAlbum (m : AlbumMap) (k : Str) : Option Album :=
  Option.map Prod.snd (m.find? (fun p => decide (p.1 = k)))

/-- Mutate the album stored under key `k` in place. -/
def updAlbum (m : AlbumMap) (k : Str) (f : Album → Album) : AlbumMap :=
  m.map (fun p => if p.1 = k then (p.1, f p.2) else p)

def sepStr : Str := " - ".data

def unknownArtist : Str := "Unknown Artist".data

def slashStr : Str := "/".data

/-- Lines 117-125: derive albumName and artist from the folder name. -/
def parseAlbumInfo (albumInfo : Str) : Str × Str :=
  if jsIncludes sepStr albumInfo then
    let albumParts := jsSplit sepStr albumInfo
    (jsTrim (albumParts.getD 0 []), jsTrim (albumParts.getD 1 []))
  else (albumInfo, unknownArtist)

/-- Lines 127-139: parsed track number and extension-stripped display name. -/
def parseTrackFile (trackFileName : Str) : Nat × Str :=
  match trackMatch trackFileName with
  | some p => (natOfDigits p.1, extStrip (jsTrim p.2))
  | none => (0, extStrip trackFileName)

def coverPat : Str := "cover".data

def jpgPat : Str := ".jpg".data

def jpegPat : Str := ".jpeg".data

def pngPat : Str := ".png".data

/-- Lines 151-153: cover-image classification of a file name. -/
def isCover (fn : Str) : Bool :=
  let lf := fn.map Char.toLower
  jsIncludes coverPat lf || jsIncludes jpgPat lf ||
  jsIncludes jpegPat lf || jsIncludes pngPat lf

/-- Lines 142-148: the album record created on first encounter. -/
def mkAlbum (na : Str × Str) : Album :=
  { albumName := na.1, artist := na.2, tracks := [], coverUrl := none }

/-- Lines 158-169: the track record, with its per-request unique id
(`timestamp`-`random`-`albumInfo with whitespace dashed`-`trackNumber`). -/
def mkTrack (ts rnd : Nat) (albumInfo : Str) (nt : Nat × Str) (url : Str) : Track :=
  { trackId := natStr ts ++ ('-' :: natStr rnd) ++ ('-' :: spaceDash albumInfo) ++ ('-' :: natStr nt.1)
  , name := nt.2
  , url := url
  , order := nt.1 }

/-- Lines 103-115: the skip checks of the grouping loop. `none` when the key
is the folder itself or its prefix-stripped path has fewer than two
`/`-separated segments; otherwise the first two segments. -/
def keyParts (e : Env) (key : Str) : Option (Str × Str) :=
  if key = e.folderPath then none
  else
    match jsSplit slashStr (removeFirst e.folderPath key) with
    | albumInfo :: trackFileName :: _ => some (albumInfo, trackFileName)
    | _ => none

/-- One iteration of the `data.Contents.forEach` grouping loop
(lines 103-170), with the `Date.now()` and `Math.random()` values this
iteration would consume passed in. -/
def processKey (e : Env) (ts rnd : Nat) (m : AlbumMap) (key : Str) : AlbumMap :=
  match keyParts e key with
  | none => m
  | some (albumInfo, trackFileName) =>
    let na := parseAlbumInfo albumInfo
    let nt := parseTrackFile trackFileName
    let m1 := if (findAlbum m albumInfo).isSome then m
              else m ++ [(albumInfo, mkAlbum na)]
    if isCover trackFileName then
      updAlbum m1 albumInfo (fun a => { a with coverUrl := some (resolveUrl e key) })
    else
      updAlbum m1 albumInfo
        (fun a => { a with tracks := a.tracks ++ [mkTrack ts rnd albumInfo nt (resolveUrl e key)] })

/-- The grouping loop over the listed keys, threading the iteration index
into the time/randomness sources. -/
def groupFrom (e : Env) (ts rnd : Nat → Nat) : Nat → AlbumMap → List Str → AlbumMap
  | _, m, [] => m
  | i, m, key :: keys => groupFrom e ts rnd (i + 1) (processKey e (ts i) (rnd i) m key) keys

/-- Lines 101-170: the whole grouping pass over the listing. -/
def groupAlbums (e : Env) (ts rnd : Nat → Nat) (keys : List Str) : AlbumMap :=
  groupFrom e ts rnd 0 [] keys

/-- `[a[i], a[j]] = [a[j], a[i]]` on a list (identity when an index is out of
range, which the shuffle never produces). -/
def swapIdx (l : List α) (i j : Nat) : List α :=
  match l.get? i, l.get? j with
  | some a, some b => (l.set i b).set j a
  | _, _ => l

/-- The Fisher-Yates loop of lines 184-187, iterating `i` from the start
value down to `1`; the draw at step `i` is `d i`. -/
def fyFrom (d : Nat → Nat) : Nat → List α → List α
  | 0, l => l
  | i + 1, l => fyFrom d i (swapIdx l (i + 1) (d (i + 1)))

/-- Lines 184-187: shuffle a list in place;
`Math.floor(Math.random() * (i + 1))` is modeled as `draw i % (i + 1)`. -/
def fisherYates (draw : Nat → Nat) (l : List α) : List α :=
  fyFrom (fun i => draw i % (i + 1)) (l.length - 1) l

/-- Stable insertion into a list sorted ascending by `f`: the new element
goes before the first element whose key is not smaller. -/
def insSorted (f : α → Nat) (x : α) : List α → List α
  | [] => [x]
  | y :: ys => if f y < f x then y :: insSorted f x ys else x :: y :: ys

/-- Stable ascending sort by the key `f` (insertion sort), the behavior of
`Array.prototype.sort` with comparator `(a, b) => f(a) - f(b)`. -/
def sortByKey (f : α → Nat) : List α → List α
  | [] => []
  | x :: xs => insSorted f x (sortByKey f xs)

/-- Line 175: `album.tracks.sort((a, b) => a.order - b.order)`. -/
def sortTracks : List Track → List Track := sortByKey Track.order

/-- Lines 190-192: `track.order = availablePositions[index]` down the sorted
track list. -/
def assignOrders : List Track → List Nat → List Track
  | [], _ => []
  | t :: ts, ps => { t with order := ps.headD 0 } :: assignOrders ts ps.tail

/-- Lines 173-195 for one album: sort by parsed number, shuffle the positions
`[0, trackCount)`, assign them. -/
def presentAlbum (draw : Nat → Nat) (album : Album) : Album :=
  let sorted := sortTracks album.tracks
  let positions := fisherYates draw (List.range sorted.length)
  { album with tracks := assignOrders sorted positions }

/-- An ECMAScript array index: the canonical decimal form of an integer
below 2^32 - 1. -/
def isArrayIndexKey (s : Str) : Bool :=
  (!s.isEmpty) && s.all jsDigit && (s == ['0'] || !(s.headD '0' == '0')) &&
  decide (natOfDigits s < 4294967295)

/-- `Object.values(albumMap)`: own-property order - array-index keys in
ascending numeric order first, then the other keys in insertion order. -/
def objectValues (m : AlbumMap) : List Album :=
  ((sortByKey (fun p => natOfDigits p.1) (m.filter (fun p => isArrayIndexKey p.1))) ++
    m.filter (fun p => !isArrayIndexKey p.1)).map Prod.snd

/-- Lines 172-195: `formattedAlbums`, randomizing each album of
`Object.values(albumMap)`; album number `i` consumes draws `draws i`. -/
def formattedAlbums (e : Env) (ts rnd : Nat → Nat) (draws : Nat → Nat → Nat)
    (keys : List Str) : List Album :=
  (List.enum (objectValues (groupAlbums e ts rnd keys))).map
    (fun p => presentAlbum (draws p.1) p.2)

/-- The JSON body plus HTTP status of a /albums response; absent JSON fields
are `none`. -/
structure ApiResponse where
  status : Nat
  success : Bool
  albums : Option (List Album)
  count : Option Nat
  error : Option Str
  errCode : Option Str
deriving DecidableEq

/-- The error object the listing call rejects with: `err.message` and
`err.code`. -/
structure JsError where
  message : Str
  errCode : Str
deriving DecidableEq

def apos : Char := Char.ofNat 39

def codeNoSuchBucket : Str := "NoSuchBucket".data

def codeAccessDenied : Str := "AccessDenied".data

def codeCredentials : Str := "CredentialsError".data

def codeNetworking : Str := "NetworkingError".data

def noBucketMsg (e : Env) : Str :=
  "Bucket ".data ++ (apos :: e.bucketName) ++ (apos :: " does not exist.".data)

def deniedMsg (e : Env) : Str :=
  "Access denied to bucket ".data ++ (apos :: e.bucketName) ++
    (apos :: ". Check your IAM permissions.".data)

def credInvalidMsg : Str :=
  "Invalid AWS credentials. Please check your Access Key and Secret Access Key.".data

def netMsg : Str :=
  "Network error while connecting to AWS. Please check your internet connection.".data

def notConfiguredMsg : Str :=
  "AWS credentials are not properly configured. Check server logs for details.".data

/-- Lines 55-83: `handleS3Error`. -/
def handleS3Error (e : Env) (err : JsError) : ApiResponse :=
  if err.errCode = codeNoSuchBucket then
    { status := 404, success := false, albums := none, count := none
    , error := some (noBucketMsg e), errCode := none }
  else if err.errCode = codeAccessDenied then
    { status := 403, success := false, albums := none, count := none
    , error := some (deniedMsg e), errCode := none }
  else if err.errCode = codeCredentials then
    { status := 401, success := false, albums := none, count := none
    , error := some credInvalidMsg, errCode := none }
  else if err.errCode = codeNetworking then
    { status := 503, success := false, albums := none, count := none
    , error := some netMsg, errCode := none }
  else
    { status := 500, success := false, albums := none, count := none
    , error := some err.message, errCode := some err.errCode }

/-- The GET /albums route: the `checkAwsCredentials` middleware (lines 44-52)
followed by the handler (lines 86-206).  The listing outcome (the awaited
`listObjectsV2` call) is passed in as data; when credentials were not
verified the middleware answers before the listing is consulted. -/
def albumsHandler (credsOk : Bool) (e : Env) (ts rnd : Nat → Nat)
    (draws : Nat → Nat → Nat) (listing : Except JsError (List Str)) : ApiResponse :=
  if credsOk then
    match listing with
    | Except.error err => handleS3Error e err
    | Except.ok keys =>
      let fa := formattedAlbums e ts rnd draws keys
      { status := 200, success := true, albums := some fa, count := some fa.length
      , error := none, errCode := none }
  else
    { status := 500, success := false, albums := none, count := none
    , error := some notConfiguredMsg, errCode := none }

/-- The coverUrl currently stored for the album of folder `f` (`none` when
the album does not exist or has no cover yet). -/
def coverAt (m : AlbumMap) (f : Str) : Option Str :=
  match findAlbum m f with
  | some a => a.coverUrl
  | none => none

/-- The track list currently stored for the album of folder `f`. -/
def tracksAt (m : AlbumMap) (f : Str) : List Track :=
  match findAlbum m f with
  | some a => a.tracks
  | none => []

def mapKeys (m : AlbumMap) : List Str := m.map Prod.fst

/-- The folder names in order of first encounter, duplicates dropped. -/
def dedupFirst (l : List Str) : List Str :=
  l.foldl (fun acc x => if x ∈ acc then acc else acc ++ [x]) []

/-- The key contributes a cover image to the album of folder `f`. -/
def keyCoverOf (e : Env) (f : Str) (k : Str) : Bool :=
  match keyParts e k with
  | some p => decide (p.1 = f) && isCover p.2
  | none => false

/-- `p` occurs as a contiguous substring of `s` (the spec's reading of
`includes`). -/
def substrOf (p s : Str) : Prop := ∃ u v, s = u ++ p ++ v

/-- The segment of `b` before its first ` - `, or all of `b`: what the
second element of `albumInfo.split(' - ')` is, phrased from the spec's
first-occurrence reading. -/
def firstSegAfter (b : Str) : Str :=
  match splitFirst sepStr b with
  | none => b
  | some p => p.1

/-- One sequence of Fisher-Yates draws for a list of length `n`: a value
in `[0, i]` for every index `i < n` (index 0 is never consulted). -/
def drawSpace (n : Nat) := (i : Fin n) → Fin (i.val + 1)

/-- The draw sequence as a plain function, as the loop consumes it. -/
def drawFun (n : Nat) (ds : drawSpace n) : Nat → Nat :=
  fun i => if h : i < n then (ds ⟨i, h⟩).val else 0

/-- The Fisher-Yates pass of lines 181-187 on `[0, ..., n-1]`, as a function
of the draw sequence. -/
def fyMap (n : Nat) (ds : drawSpace n) : List Nat :=
  fyFrom (drawFun n ds) (n - 1) (List.range n)

def defAlbum : Album :=
  { albumName := [], artist := [], tracks := [], coverUrl := none }

/-- A key of the form prefix ++ folder ++ "/": an S3 folder-marker object. -/
def markerKey (e : Env) (fn : Str) : Str := e.folderPath ++ fn ++ slashStr

/-- The track a folder-marker key contributes. -/
def markerTrack (e : Env) (t r : Nat) (fn : Str) : Track :=
  mkTrack t r fn (0, []) (resolveUrl e (markerKey e fn))

theorem isPrefixOf_iff_ex : ∀ (p s : Str), p.isPrefixOf s = true ↔ ∃ t, s = p ++ t
  | [], s => by simp [List.isPrefixOf]
  | a :: p2, [] => by simp [List.isPrefixOf]
  | a :: p2, b :: s2 => by
    simp only [List.isPrefixOf, Bool.and_eq_true, beq_iff_eq]
    constructor
    · rintro ⟨rfl, h⟩
      obtain ⟨t, rfl⟩ := (isPrefixOf_iff_ex p2 s2).mp h
      exact ⟨t, rfl⟩
    · rintro ⟨t, ht⟩
      rw [List.cons_append] at ht
      injection ht with h1 h2
      subst h1
      subst h2
      exact ⟨rfl, (isPrefixOf_iff_ex p2 (p2 ++ t)).mpr ⟨t, rfl⟩⟩

theorem removeFirst_append : ∀ (p r : Str), removeFirst p (p ++ r) = r := by
  intro p r
  cases p with
  | nil =>
    cases r with
    | nil => rfl
    | cons c rest => simp [removeFirst, List.isPrefixOf]
  | cons a p2 =>
    show removeFirst (a :: p2) (a :: (p2 ++ r)) = r
    rw [removeFirst, if_pos]
    · show List.drop (a :: p2).length (a :: (p2 ++ r)) = r
      simp [List.drop_left]
    · exact (isPrefixOf_iff_ex (a :: p2) (a :: (p2 ++ r))).mpr ⟨r, by simp⟩

theorem splitFirst_eq (pat : Str) :
    ∀ (s a b : Str), splitFirst pat s = some (a, b) → s = a ++ pat ++ b := by
  intro s
  induction s with
  | nil =>
    intro a b h
    by_cases hp : pat = []
    · subst hp
      simp [splitFirst] at h
      obtain ⟨rfl, rfl⟩ := h
      rfl
    · simp [splitFirst, hp] at h
  | cons c rest ih =>
    intro a b h
    rw [splitFirst] at h
    by_cases hp : pat.isPrefixOf (c :: rest) = true
    · rw [if_pos hp] at h
      simp only [Option.some.injEq, Prod.mk.injEq] at h
      obtain ⟨ha, hb⟩ := h
      obtain ⟨t, ht⟩ := (isPrefixOf_iff_ex pat (c :: rest)).mp hp
      subst ha
      rw [ht] at hb ⊢
      rw [List.drop_left] at hb
      subst hb
      simp
    · rw [if_neg hp] at h
      cases hs : splitFirst pat rest with
      | none => rw [hs] at h; simp at h
      | some p =>
        rw [hs] at h
        simp only [Option.map_some', Option.some.injEq, Prod.mk.injEq] at h
        have hr := ih p.1 p.2 (by rw [hs])
        rw [← h.1, ← h.2, List.cons_append, List.cons_append, ← hr]

theorem splitFirst_isSome_append :
    ∀ (u pat v : Str), (splitFirst pat (u ++ pat ++ v)).isSome = true := by
  intro u
  induction u with
  | nil =>
    intro pat v
    cases pat with
    | nil =>
      cases v with
      | nil => rfl
      | cons c rest => simp [splitFirst, List.isPrefixOf]
    | cons a p2 =>
      show (splitFirst (a :: p2) (a :: (p2 ++ v))).isSome = true
      rw [splitFirst, if_pos]
      · rfl
      · exact (isPrefixOf_iff_ex (a :: p2) (a :: (p2 ++ v))).mpr ⟨v, by simp⟩
  | cons c u2 ih =>
    intro pat v
    show (splitFirst pat (c :: (u2 ++ pat ++ v))).isSome = true
    rw [splitFirst]
    by_cases hp : pat.isPrefixOf (c :: (u2 ++ pat ++ v)) = true
    · rw [if_pos hp]; rfl
    · rw [if_neg hp]
      have := ih pat v
      cases hs : splitFirst pat (u2 ++ pat ++ v) with
      | none => rw [hs] at this; simp at this
      | some p => simp

theorem jsIncludes_iff_substr (pat s : Str) : jsIncludes pat s = true ↔ substrOf pat s := by
  unfold jsIncludes substrOf
  constructor
  · intro h
    obtain ⟨p, hp⟩ := Option.isSome_iff_exists.mp h
    exact ⟨p.1, p.2, splitFirst_eq pat s p.1 p.2 hp⟩
  · rintro ⟨u, v, rfl⟩
    exact splitFirst_isSome_append u pat v

theorem splitFirst_length (pat : Str) (hp : pat ≠ []) :
    ∀ (s a b : Str), splitFirst pat s = some (a, b) → b.length < s.length := by
  intro s
  induction s with
  | nil => intro a b h; simp [splitFirst, hp] at h
  | cons c rest ih =>
    intro a b h
    rw [splitFirst] at h
    by_cases hpre : pat.isPrefixOf (c :: rest) = true
    · rw [if_pos hpre] at h
      simp only [Option.some.injEq, Prod.mk.injEq] at h
      have hlen : 1 ≤ pat.length := List.length_pos.mpr hp
      rw [← h.2]
      simp only [List.length_drop, List.length_cons]
      omega
    · rw [if_neg hpre] at h
      cases hs : splitFirst pat rest with
      | none => rw [hs] at h; simp at h
      | some p =>
        rw [hs] at h
        simp only [Option.map_some', Option.some.injEq, Prod.mk.injEq] at h
        have := ih p.1 p.2 (by rw [hs])
        rw [← h.2]
        simp only [List.length_cons]
        omega

theorem jsSplitFuel_congr (pat : Str) (hp : pat ≠ []) :
    ∀ (n : Nat) (s : Str) (f g : Nat), s.length ≤ n → s.length < f → s.length < g →
      jsSplitFuel pat f s = jsSplitFuel pat g s := by
  intro n
  induction n with
  | zero =>
    intro s f g h hf hg
    have hs : s = [] := List.length_eq_zero.mp (Nat.le_zero.mp h)
    subst hs
    cases f with
    | zero => omega
    | succ f2 =>
      cases g with
      | zero => omega
      | succ g2 => simp [jsSplitFuel, splitFirst, hp]
  | succ n ih =>
    intro s f g h hf hg
    cases f with
    | zero => omega
    | succ f2 =>
      cases g with
      | zero => omega
      | succ g2 =>
        rw [jsSplitFuel, jsSplitFuel]
        cases hsp : splitFirst pat s with
        | none => rfl
        | some p =>
          have hlen := splitFirst_length pat hp s p.1 p.2 (by rw [hsp])
          show p.1 :: jsSplitFuel pat f2 p.2 = p.1 :: jsSplitFuel pat g2 p.2
          rw [ih p.2 f2 g2 (by omega) (by omega) (by omega)]

theorem splitFirst_nil_of_ne (pat : Str) (hp : pat ≠ []) : splitFirst pat [] = none := by
  simp [splitFirst, hp]

theorem jsSplit_none (pat s : Str) (h : splitFirst pat s = none) : jsSplit pat s = [s] := by
  have hp : pat ≠ [] := by
    intro he
    subst he
    cases s with
    | nil => simp [splitFirst] at h
    | cons c rest => simp [splitFirst, List.isPrefixOf] at h
  unfold jsSplit
  rw [if_neg hp, jsSplitFuel, h]

theorem jsSplit_cons (pat s a b : Str) (hp : pat ≠ [])
    (h : splitFirst pat s = some (a, b)) : jsSplit pat s = a :: jsSplit pat b := by
  unfold jsSplit
  rw [if_neg hp, if_neg hp, jsSplitFuel, h]
  have hlen := splitFirst_length pat hp s a b h
  show a :: jsSplitFuel pat s.length b = a :: jsSplitFuel pat (b.length + 1) b
  rw [jsSplitFuel_congr pat hp b.length b s.length (b.length + 1) (Nat.le_refl _) (by omega) (by omega)]

theorem splitFirst_slash_marker :
    ∀ (fn rest : Str), ¬('/' ∈ fn) → splitFirst slashStr (fn ++ '/' :: rest) = some (fn, rest) := by
  intro fn
  induction fn with
  | nil =>
    intro rest h
    show splitFirst slashStr ('/' :: rest) = some ([], rest)
    rw [splitFirst, if_pos]
    · rfl
    · exact (isPrefixOf_iff_ex slashStr ('/' :: rest)).mpr ⟨rest, rfl⟩
  | cons c fn2 ih =>
    intro rest h
    have hc : c ≠ '/' := fun he => h (he ▸ List.mem_cons_self c fn2)
    show splitFirst slashStr (c :: (fn2 ++ '/' :: rest)) = some (c :: fn2, rest)
    rw [splitFirst, if_neg, ih rest (fun hm => h (List.mem_cons_of_mem c hm))]
    · rfl
    · intro hpre
      obtain ⟨t, ht⟩ := (isPrefixOf_iff_ex slashStr _).mp hpre
      have : c = '/' := by
        have := congrArg (fun l => l.headD ' ') ht
        simpa [slashStr] using this
      exact hc this

theorem slashStr_ne_nil : slashStr ≠ [] := by decide

theorem jsSplit_marker (fn : Str) (h : ¬('/' ∈ fn)) :
    jsSplit slashStr (fn ++ slashStr) = [fn, []] := by
  have h1 : splitFirst slashStr (fn ++ '/' :: []) = some (fn, []) :=
    splitFirst_slash_marker fn [] h
  rw [show fn ++ slashStr = fn ++ '/' :: [] from rfl]
  rw [jsSplit_cons slashStr _ fn [] slashStr_ne_nil h1]
  rw [jsSplit_none slashStr [] (splitFirst_nil_of_ne slashStr slashStr_ne_nil)]

theorem takeWhile_all_append {α : Type} (p : α → Bool) :
    ∀ (u v : List α), (∀ c ∈ u, p c = true) → (u ++ v).takeWhile p = u ++ v.takeWhile p := by
  intro u
  induction u with
  | nil => intro v h; rfl
  | cons a u2 ih =>
    intro v h
    rw [List.cons_append, List.takeWhile_cons, if_pos (h a (List.mem_cons_self a u2))]
    rw [ih v (fun c hc => h c (List.mem_cons_of_mem a hc)), List.cons_append]

theorem dropWhile_all_append {α : Type} (p : α → Bool) :
    ∀ (u v : List α), (∀ c ∈ u, p c = true) → (u ++ v).dropWhile p = v.dropWhile p := by
  intro u
  induction u with
  | nil => intro v h; rfl
  | cons a u2 ih =>
    intro v h
    rw [List.cons_append, List.dropWhile_cons, if_pos (h a (List.mem_cons_self a u2))]
    exact ih v (fun c hc => h c (List.mem_cons_of_mem a hc))

theorem dropWhile_head_false {α : Type} (p : α → Bool) :
    ∀ (l : List α) (c : α) (xs : List α), l.dropWhile p = c :: xs → p c = false := by
  intro l
  induction l with
  | nil => intro c xs h; simp at h
  | cons a l2 ih =>
    intro c xs h
    rw [List.dropWhile_cons] at h
    by_cases hp : p a = true
    · rw [if_pos hp] at h; exact ih c xs h
    · rw [if_neg hp] at h
      injection h with h1 h2
      subst h1
      exact Bool.eq_false_iff.mpr hp

theorem mem_of_dropWhile_head {α : Type} (p : α → Bool) :
    ∀ (l : List α) (c : α) (xs : List α), l.dropWhile p = c :: xs → c ∈ l := by
  intro l
  induction l with
  | nil => intro c xs h; simp at h
  | cons a l2 ih =>
    intro c xs h
    rw [List.dropWhile_cons] at h
    by_cases hp : p a = true
    · rw [if_pos hp] at h; exact List.mem_cons_of_mem a (ih c xs h)
    · rw [if_neg hp] at h
      injection h with h1 h2
      subst h1
      exact List.mem_cons_self _ _

theorem extStrip_ext (s t : Str) (ht : t ≠ []) (hall : ∀ c ∈ t, ¬(c = '.' ∨ c = '/')) :
    extStrip (s ++ '.' :: t) = s := by
  have hrev : (s ++ '.' :: t).reverse = t.reverse ++ '.' :: s.reverse := by simp
  have hallp : ∀ c ∈ t.reverse, (fun c => !(c == '.' || c == '/')) c = true := by
    intro c hc
    have h2 := hall c (List.mem_reverse.mp hc)
    simp only [Bool.not_eq_true', Bool.or_eq_false_iff, beq_eq_false_iff_ne, ne_eq]
    exact ⟨fun he => h2 (Or.inl he), fun he => h2 (Or.inr he)⟩
  have hdrop : (s ++ '.' :: t).reverse.dropWhile (fun c => !(c == '.' || c == '/')) =
      '.' :: s.reverse := by
    rw [hrev, dropWhile_all_append _ t.reverse _ hallp, List.dropWhile_cons,
      if_neg (by decide)]
  have htake : (s ++ '.' :: t).reverse.takeWhile (fun c => !(c == '.' || c == '/')) =
      t.reverse := by
    rw [hrev, takeWhile_all_append _ t.reverse _ hallp, List.takeWhile_cons,
      if_neg (by decide), List.append_nil]
  unfold extStrip
  rw [hdrop, htake]
  rw [if_pos (by simp), if_neg (by simp [ht]), List.tail_cons, List.reverse_reverse]

theorem extStrip_no_dot (s : Str) (h : ¬('.' ∈ s)) : extStrip s = s := by
  unfold extStrip
  cases hd : s.reverse.dropWhile (fun c => !(c == '.' || c == '/')) with
  | nil => simp
  | cons c xs =>
    have hcmem : c ∈ s := List.mem_reverse.mp (mem_of_dropWhile_head _ s.reverse c xs hd)
    have hcd : c ≠ '.' := fun he => h (he ▸ hcmem)
    simp only [List.headD_cons]
    rw [if_neg hcd]

theorem insSorted_perm {α : Type} (f : α → Nat) (x : α) :
    ∀ l, (insSorted f x l).Perm (x :: l)
  | [] => List.Perm.refl _
  | y :: ys => by
    rw [insSorted]
    by_cases h : f y < f x
    · rw [if_pos h]
      exact List.Perm.trans (List.Perm.cons y (insSorted_perm f x ys)) (List.Perm.swap x y ys)
    · rw [if_neg h]

theorem sortByKey_perm {α : Type} (f : α → Nat) : ∀ l, (sortByKey f l).Perm l
  | [] => List.Perm.refl _
  | x :: xs =>
    List.Perm.trans (insSorted_perm f x (sortByKey f xs))
      (List.Perm.cons x (sortByKey_perm f xs))

theorem insSorted_pairwise {α : Type} (f : α → Nat) (x : α) :
    ∀ l, List.Pairwise (fun a b => f a ≤ f b) l →
      List.Pairwise (fun a b => f a ≤ f b) (insSorted f x l)
  | [], _ => by simp [insSorted]
  | y :: ys, hp => by
    rw [insSorted]
    obtain ⟨hy, hys⟩ := List.pairwise_cons.mp hp
    by_cases h : f y < f x
    · rw [if_pos h]
      refine List.pairwise_cons.mpr ⟨?_, insSorted_pairwise f x ys hys⟩
      intro z hz
      have hz2 : z ∈ x :: ys := (insSorted_perm f x ys).mem_iff.mp hz
      rcases List.mem_cons.mp hz2 with rfl | hz3
      · exact Nat.le_of_lt h
      · exact hy z hz3
    · rw [if_neg h]
      refine List.pairwise_cons.mpr ⟨?_, hp⟩
      intro z hz
      have hxy : f x ≤ f y := Nat.le_of_not_lt h
      rcases List.mem_cons.mp hz with rfl | hz2
      · exact hxy
      · exact Nat.le_trans hxy (hy z hz2)

theorem sortByKey_pairwise {α : Type} (f : α → Nat) :
    ∀ l, List.Pairwise (fun a b => f a ≤ f b) (sortByKey f l)
  | [] => List.Pairwise.nil
  | x :: xs => insSorted_pairwise f x (sortByKey f xs) (sortByKey_pairwise f xs)

theorem insSorted_filter {α : Type} (f : α → Nat) (x : α) (k : Nat) :
    ∀ l, (insSorted f x l).filter (fun a => decide (f a = k)) =
      (x :: l).filter (fun a => decide (f a = k))
  | [] => rfl
  | y :: ys => by
    rw [insSorted]
    by_cases h : f y < f x
    · rw [if_pos h]
      by_cases hyk : f y = k
      · have hxk : ¬(f x = k) := by omega
        simp [List.filter_cons, insSorted_filter f x k ys, hyk, hxk]
      · by_cases hxk : f x = k <;>
          simp [List.filter_cons, insSorted_filter f x k ys, hyk, hxk]
    · rw [if_neg h]

theorem sortByKey_filter {α : Type} (f : α → Nat) (k : Nat) :
    ∀ l, (sortByKey f l).filter (fun a => decide (f a = k)) =
      l.filter (fun a => decide (f a = k))
  | [] => rfl
  | x :: xs => by
    rw [sortByKey, insSorted_filter f x k (sortByKey f xs)]
    rw [List.filter_cons, List.filter_cons, sortByKey_filter f k xs]

theorem findAlbum_nil (k : Str) : findAlbum [] k = none := rfl

theorem findAlbum_cons (p : Str × Album) (m : AlbumMap) (k : Str) :
    findAlbum (p :: m) k = if p.1 = k then some p.2 else findAlbum m k := by
  unfold findAlbum
  rw [List.find?_cons]
  by_cases h : p.1 = k
  · simp [h]
  · simp [h]

theorem findAlbum_append_one :
    ∀ (m : AlbumMap) (k : Str) (a : Album) (k2 : Str),
      findAlbum (m ++ [(k, a)]) k2 =
        match findAlbum m k2 with
        | some b => some b
        | none => if k = k2 then some a else none := by
  intro m
  induction m with
  | nil =>
    intro k a k2
    rw [List.nil_append, findAlbum_cons, findAlbum_nil]
  | cons p m2 ih =>
    intro k a k2
    rw [List.cons_append, findAlbum_cons, findAlbum_cons]
    by_cases h : p.1 = k2
    · simp [h]
    · simp only [h, if_false]
      exact ih k a k2

theorem findAlbum_upd :
    ∀ (m : AlbumMap) (k : Str) (f : Album → Album) (k2 : Str),
      findAlbum (updAlbum m k f) k2 =
        if k2 = k then Option.map f (findAlbum m k2) else findAlbum m k2 := by
  intro m
  induction m with
  | nil =>
    intro k f k2
    by_cases h : k2 = k <;> simp [updAlbum, findAlbum_nil, h]
  | cons p m2 ih =>
    intro k f k2
    show findAlbum ((if p.1 = k then (p.1, f p.2) else p) :: updAlbum m2 k f) k2 = _
    rw [findAlbum_cons, findAlbum_cons]
    by_cases hpk : p.1 = k
    · rw [if_pos hpk]
      by_cases hk2 : k2 = k
      · have hp2 : p.1 = k2 := by rw [hpk, hk2]
        simp [hp2, hk2]
      · have hp2 : ¬(p.1 = k2) := by rw [hpk]; exact fun he => hk2 he.symm
        simp only [hp2, if_false, hk2, ih]
    · rw [if_neg hpk]
      by_cases hp2 : p.1 = k2
      · have hk2 : ¬(k2 = k) := by rw [← hp2]; exact fun he => hpk he
        simp [hp2, hk2]
      · simp only [hp2, if_false]
        exact ih k f k2

theorem mapKeys_upd (m : AlbumMap) (k : Str) (f : Album → Album) :
    mapKeys (updAlbum m k f) = mapKeys m := by
  induction m with
  | nil => rfl
  | cons p m2 ih =>
    show mapKeys ((if p.1 = k then (p.1, f p.2) else p) :: updAlbum m2 k f) = _
    by_cases h : p.1 = k <;> simp [mapKeys, h] <;> exact ih

theorem mapKeys_append (m1 m2 : AlbumMap) : mapKeys (m1 ++ m2) = mapKeys m1 ++ mapKeys m2 := by
  simp [mapKeys]

theorem findAlbum_isSome_iff (m : AlbumMap) (k : Str) :
    (findAlbum m k).isSome = true ↔ k ∈ mapKeys m := by
  induction m with
  | nil => simp [findAlbum_nil, mapKeys]
  | cons p m2 ih =>
    rw [findAlbum_cons]
    have hmk : mapKeys (p :: m2) = p.1 :: mapKeys m2 := rfl
    rw [hmk, List.mem_cons]
    by_cases h : p.1 = k
    · rw [if_pos h]
      constructor
      · intro _; exact Or.inl h.symm
      · intro _; rfl
    · rw [if_neg h, ih]
      constructor
      · intro hm; exact Or.inr hm
      · rintro (he | hm)
        · exact absurd he.symm h
        · exact hm

theorem pk_skip (e : Env) (t r : Nat) (m : AlbumMap) (k : Str)
    (h : keyParts e k = none) : processKey e t r m k = m := by
  simp [processKey, h]

theorem findAlbum_m1 (e : Env) (m : AlbumMap) (a : Str) (na : Str × Str) :
    ∀ k2, k2 ≠ a →
      findAlbum (if (findAlbum m a).isSome then m else m ++ [(a, mkAlbum na)]) k2 =
        findAlbum m k2 := by
  intro k2 hne
  by_cases hs : (findAlbum m a).isSome = true
  · rw [if_pos hs]
  · rw [if_neg hs, findAlbum_append_one]
    cases hm : findAlbum m k2 with
    | some b => rfl
    | none =>
      have hne2 : ¬(a = k2) := fun he => hne he.symm
      simp [hne2]

theorem findAlbum_m1_self (e : Env) (m : AlbumMap) (a : Str) (na : Str × Str) :
    findAlbum (if (findAlbum m a).isSome then m else m ++ [(a, mkAlbum na)]) a =
      match findAlbum m a with
      | some b => some b
      | none => some (mkAlbum na) := by
  cases hm : findAlbum m a with
  | some b =>
    rw [if_pos (by simp)]
    exact hm
  | none =>
    rw [if_neg (by simp), findAlbum_append_one, hm]
    simp

theorem pk_cover_self (e : Env) (t r : Nat) (m : AlbumMap) (k a f : Str)
    (h : keyParts e k = some (a, f)) (hc : isCover f = true) :
    coverAt (processKey e t r m k) a = some (resolveUrl e k) ∧
      tracksAt (processKey e t r m k) a = tracksAt m a := by
  simp only [processKey, h, hc, if_true]
  constructor
  · unfold coverAt
    rw [findAlbum_upd, if_pos rfl, findAlbum_m1_self e m a (parseAlbumInfo a)]
    cases hm : findAlbum m a <;> simp
  · unfold tracksAt
    rw [findAlbum_upd, if_pos rfl, findAlbum_m1_self e m a (parseAlbumInfo a)]
    cases hm : findAlbum m a <;> simp [mkAlbum]

theorem pk_track_self (e : Env) (t r : Nat) (m : AlbumMap) (k a f : Str)
    (h : keyParts e k = some (a, f)) (hc : isCover f = false) :
    tracksAt (processKey e t r m k) a =
        tracksAt m a ++ [mkTrack t r a (parseTrackFile f) (resolveUrl e k)] ∧
      coverAt (processKey e t r m k) a = coverAt m a := by
  simp only [processKey, h, hc, if_false, Bool.false_eq_true]
  constructor
  · unfold tracksAt
    rw [findAlbum_upd, if_pos rfl, findAlbum_m1_self e m a (parseAlbumInfo a)]
    cases hm : findAlbum m a <;> simp [mkAlbum]
  · unfold coverAt
    rw [findAlbum_upd, if_pos rfl, findAlbum_m1_self e m a (parseAlbumInfo a)]
    cases hm : findAlbum m a <;> simp [mkAlbum]

theorem pk_other (e : Env) (t r : Nat) (m : AlbumMap) (k a f : Str)
    (h : keyParts e k = some (a, f)) (a2 : Str) (hne : a2 ≠ a) :
    findAlbum (processKey e t r m k) a2 = findAlbum m a2 := by
  simp only [processKey, h]
  by_cases hc : isCover f = true <;>
    simp only [hc, if_true, if_false, Bool.false_eq_true] <;>
    rw [findAlbum_upd, if_neg hne] <;>
    exact findAlbum_m1 e m a (parseAlbumInfo a) a2 hne

theorem pk_isSome (e : Env) (t r : Nat) (m : AlbumMap) (k a f : Str)
    (h : keyParts e k = some (a, f)) :
    (findAlbum (processKey e t r m k) a).isSome = true := by
  simp only [processKey, h]
  by_cases hc : isCover f = true <;>
    simp only [hc, if_true, if_false, Bool.false_eq_true] <;>
    rw [findAlbum_upd, if_pos rfl, findAlbum_m1_self e m a (parseAlbumInfo a)] <;>
    cases hm : findAlbum m a <;> simp

theorem pk_coverAt_step (e : Env) (t r : Nat) (m : AlbumMap) (k f : Str) :
    coverAt (processKey e t r m k) f =
      if keyCoverOf e f k then some (resolveUrl e k) else coverAt m f := by
  unfold keyCoverOf
  cases h : keyParts e k with
  | none => rw [pk_skip e t r m k h]; rfl
  | some p =>
    by_cases hpf : p.1 = f
    · subst hpf
      by_cases hc : isCover p.2 = true
      · rw [(pk_cover_self e t r m k p.1 p.2 (by rw [h]) hc).1]
        simp [hc]
      · rw [((pk_track_self e t r m k p.1 p.2 (by rw [h]) (Bool.eq_false_iff.mpr hc))).2]
        simp [hc]
    · have := pk_other e t r m k p.1 p.2 (by rw [h]) f (fun he => hpf he.symm)
      unfold coverAt
      rw [this]
      simp [hpf]

theorem pk_mapKeys (e : Env) (t r : Nat) (m : AlbumMap) (k : Str) :
    mapKeys (processKey e t r m k) =
      match keyParts e k with
      | none => mapKeys m
      | some p => if p.1 ∈ mapKeys m then mapKeys m else mapKeys m ++ [p.1] := by
  cases h : keyParts e k with
  | none => rw [pk_skip e t r m k h]
  | some p =>
    simp only [processKey, h]
    by_cases hc : isCover p.2 = true <;>
      simp only [hc, if_true, if_false, Bool.false_eq_true] <;>
      rw [mapKeys_upd] <;>
      by_cases hs : (findAlbum m p.1).isSome = true
    · rw [if_pos hs, if_pos ((findAlbum_isSome_iff m p.1).mp hs)]
    · rw [if_neg hs, mapKeys_append,
        if_neg (fun hm => hs ((findAlbum_isSome_iff m p.1).mpr hm))]
      rfl
    · rw [if_pos hs, if_pos ((findAlbum_isSome_iff m p.1).mp hs)]
    · rw [if_neg hs, mapKeys_append,
        if_neg (fun hm => hs ((findAlbum_isSome_iff m p.1).mpr hm))]
      rfl

theorem getLast_cons_eq {α : Type} (x : α) (l : List α) :
    (x :: l).getLast? = match l.getLast? with
      | none => some x
      | some y => some y := by
  cases l with
  | nil => rfl
  | cons h t =>
    rw [List.getLast?_cons_cons]
    cases hl : (h :: t).getLast? with
    | none => simp at hl
    | some y => rfl

theorem coverAt_groupFrom (e : Env) (ts rnd : Nat → Nat) (f : Str) :
    ∀ (ks : List Str) (i : Nat) (m : AlbumMap),
      coverAt (groupFrom e ts rnd i m ks) f =
        match (ks.filter (keyCoverOf e f)).getLast? with
        | some k => some (resolveUrl e k)
        | none => coverAt m f := by
  intro ks
  induction ks with
  | nil => intro i m; rfl
  | cons k ks2 ih =>
    intro i m
    rw [groupFrom, ih (i + 1) (processKey e (ts i) (rnd i) m k), List.filter_cons]
    by_cases hk : keyCoverOf e f k = true
    · rw [if_pos hk, getLast_cons_eq]
      cases hl : (ks2.filter (keyCoverOf e f)).getLast? with
      | none => rw [pk_coverAt_step, if_pos hk]
      | some y => rfl
    · rw [if_neg hk]
      cases hl : (ks2.filter (keyCoverOf e f)).getLast? with
      | none => rw [pk_coverAt_step, if_neg hk]
      | some y => rfl

theorem mapKeys_groupFrom (e : Env) (ts rnd : Nat → Nat) :
    ∀ (ks : List Str) (i : Nat) (m : AlbumMap),
      mapKeys (groupFrom e ts rnd i m ks) =
        (ks.filterMap (fun k => Option.map Prod.fst (keyParts e k))).foldl
          (fun acc x => if x ∈ acc then acc else acc ++ [x]) (mapKeys m) := by
  intro ks
  induction ks with
  | nil => intro i m; rfl
  | cons k ks2 ih =>
    intro i m
    rw [groupFrom, ih (i + 1) (processKey e (ts i) (rnd i) m k), pk_mapKeys]
    cases h : keyParts e k with
    | none => rw [List.filterMap_cons, h]; rfl
    | some p => rw [List.filterMap_cons, h]; rfl

theorem headSetPerm {α : Type} :
    ∀ (xs : List α) (m : Nat) (a b : α), xs.get? m = some b →
      (b :: xs.set m a).Perm (a :: xs)
  | [], m, a, b => by intro h; simp at h
  | x :: xs2, 0, a, b => by
    intro h
    rw [List.get?_cons_zero] at h
    injection h with h1
    subst h1
    exact List.Perm.swap a x xs2
  | x :: xs2, m + 1, a, b => by
    intro h
    rw [List.get?_cons_succ] at h
    show (b :: x :: xs2.set m a).Perm (a :: x :: xs2)
    have p1 : (b :: x :: xs2.set m a).Perm (x :: b :: xs2.set m a) := List.Perm.swap x b _
    have p2 : (x :: b :: xs2.set m a).Perm (x :: a :: xs2) :=
      List.Perm.cons x (headSetPerm xs2 m a b h)
    have p3 : (x :: a :: xs2).Perm (a :: x :: xs2) := List.Perm.swap a x xs2
    exact p1.trans (p2.trans p3)

theorem setSetPerm {α : Type} :
    ∀ (l : List α) (i j : Nat) (a b : α), l.get? i = some a → l.get? j = some b →
      ((l.set i b).set j a).Perm l
  | [], i, j, a, b => by intro hi hj; simp at hi
  | x :: xs, 0, 0, a, b => by
    intro hi hj
    rw [List.get?_cons_zero] at hi
    injection hi with h1
    subst h1
    exact List.Perm.refl _
  | x :: xs, 0, j + 1, a, b => by
    intro hi hj
    rw [List.get?_cons_zero] at hi
    rw [List.get?_cons_succ] at hj
    injection hi with h1
    subst h1
    show (b :: xs.set j x).Perm (x :: xs)
    exact headSetPerm xs j x b hj
  | x :: xs, i + 1, 0, a, b => by
    intro hi hj
    rw [List.get?_cons_succ] at hi
    rw [List.get?_cons_zero] at hj
    injection hj with h2
    subst h2
    show (a :: xs.set i x).Perm (x :: xs)
    exact headSetPerm xs i x a hi
  | x :: xs, i + 1, j + 1, a, b => by
    intro hi hj
    rw [List.get?_cons_succ] at hi
    rw [List.get?_cons_succ] at hj
    show (x :: (xs.set i b).set j a).Perm (x :: xs)
    exact List.Perm.cons x (setSetPerm xs i j a b hi hj)

theorem swapIdx_perm {α : Type} (l : List α) (i j : Nat) : (swapIdx l i j).Perm l := by
  unfold swapIdx
  cases hi : l.get? i with
  | none => exact List.Perm.refl l
  | some a =>
    cases hj : l.get? j with
    | none => exact List.Perm.refl l
    | some b => exact setSetPerm l i j a b hi hj

theorem swapIdx_length {α : Type} (l : List α) (i j : Nat) :
    (swapIdx l i j).length = l.length :=
  (swapIdx_perm l i j).length_eq

theorem swapIdx_get?_other {α : Type} (l : List α) (i j k : Nat)
    (hki : k ≠ i) (hkj : k ≠ j) : (swapIdx l i j).get? k = l.get? k := by
  unfold swapIdx
  cases hi : l.get? i with
  | none => rfl
  | some a =>
    cases hj : l.get? j with
    | none => rfl
    | some b =>
      show ((l.set i b).set j a).get? k = l.get? k
      rw [List.get?_set, if_neg (fun he => hkj he.symm),
        List.get?_set, if_neg (fun he => hki he.symm)]

theorem swapIdx_get?_left {α : Type} (l : List α) (i j : Nat)
    (hi : i < l.length) (hj : j < l.length) : (swapIdx l i j).get? i = l.get? j := by
  have ha := List.get?_eq_get hi
  have hb := List.get?_eq_get hj
  unfold swapIdx
  rw [ha, hb]
  show ((l.set i (l.get ⟨j, hj⟩)).set j (l.get ⟨i, hi⟩)).get? i = _
  by_cases hji : j = i
  · subst hji
    rw [List.get?_set, if_pos rfl, List.get?_set, if_pos rfl, hb]
    rfl
  · rw [List.get?_set, if_neg hji, List.get?_set, if_pos rfl, ha]
    rfl

theorem fyFrom_perm {α : Type} (d : Nat → Nat) :
    ∀ (i : Nat) (l : List α), (fyFrom d i l).Perm l
  | 0, l => List.Perm.refl l
  | i + 1, l =>
    (fyFrom_perm d i (swapIdx l (i + 1) (d (i + 1)))).trans
      (swapIdx_perm l (i + 1) (d (i + 1)))

theorem fisherYates_perm {α : Type} (draw : Nat → Nat) (l : List α) :
    (fisherYates draw l).Perm l :=
  fyFrom_perm _ _ l

theorem fyFrom_get?_high {α : Type} (d : Nat → Nat) :
    ∀ (i : Nat) (l : List α), (∀ k2, k2 ≤ i → d k2 ≤ k2) →
      ∀ k, i < k → (fyFrom d i l).get? k = l.get? k
  | 0, l => by intro hd k hk; rfl
  | i + 1, l => by
    intro hd k hk
    show (fyFrom d i (swapIdx l (i + 1) (d (i + 1)))).get? k = l.get? k
    rw [fyFrom_get?_high d i _ (fun k2 h2 => hd k2 (by omega)) k (by omega)]
    refine swapIdx_get?_other l (i + 1) (d (i + 1)) k (by omega) ?_
    intro he
    have hb := hd (i + 1) (Nat.le_refl _)
    omega

theorem fyFrom_congr {α : Type} (d d2 : Nat → Nat) :
    ∀ (i : Nat) (l : List α), (∀ k, 1 ≤ k → k ≤ i → d k = d2 k) →
      fyFrom d i l = fyFrom d2 i l
  | 0, l, _ => rfl
  | i + 1, l, h => by
    show fyFrom d i (swapIdx l (i + 1) (d (i + 1))) =
      fyFrom d2 i (swapIdx l (i + 1) (d2 (i + 1)))
    rw [h (i + 1) (by omega) (Nat.le_refl _)]
    exact fyFrom_congr d d2 i _ (fun k h1 h2 => h k h1 (by omega))

theorem fyFrom_inj (d d2 : Nat → Nat) :
    ∀ (i : Nat) (l : List Nat), l.Nodup → (∀ k, k ≤ i → d k ≤ k) →
      (∀ k, k ≤ i → d2 k ≤ k) → i < l.length → fyFrom d i l = fyFrom d2 i l →
      ∀ k, 1 ≤ k → k ≤ i → d k = d2 k
  | 0, l => by intro _ _ _ _ _ k h1 h2; omega
  | i + 1, l => by
    intro hnd hd hd2 hlen heq k hk1 hk2
    have hdb : d (i + 1) ≤ i + 1 := hd _ (Nat.le_refl _)
    have hdb2 : d2 (i + 1) ≤ i + 1 := hd2 _ (Nat.le_refl _)
    have e1 : (fyFrom d (i + 1) l).get? (i + 1) = l.get? (d (i + 1)) := by
      show (fyFrom d i (swapIdx l (i + 1) (d (i + 1)))).get? (i + 1) = _
      rw [fyFrom_get?_high d i _ (fun k2 h2 => hd k2 (by omega)) (i + 1) (by omega)]
      exact swapIdx_get?_left l (i + 1) (d (i + 1)) hlen (by omega)
    have e2 : (fyFrom d2 (i + 1) l).get? (i + 1) = l.get? (d2 (i + 1)) := by
      show (fyFrom d2 i (swapIdx l (i + 1) (d2 (i + 1)))).get? (i + 1) = _
      rw [fyFrom_get?_high d2 i _ (fun k2 h2 => hd2 k2 (by omega)) (i + 1) (by omega)]
      exact swapIdx_get?_left l (i + 1) (d2 (i + 1)) hlen (by omega)
    have hA : l.get? (d (i + 1)) = l.get? (d2 (i + 1)) := by
      rw [← e1, ← e2, heq]
    have hjj : d (i + 1) = d2 (i + 1) := List.get?_inj (by omega) hnd hA
    by_cases hki : k ≤ i
    · have hstep : fyFrom d i (swapIdx l (i + 1) (d (i + 1))) =
          fyFrom d2 i (swapIdx l (i + 1) (d2 (i + 1))) := heq
      rw [← hjj] at hstep
      refine fyFrom_inj d d2 i (swapIdx l (i + 1) (d (i + 1)))
        (List.Perm.nodup (swapIdx_perm l (i + 1) (d (i + 1))).symm hnd)
        (fun k2 h2 => hd k2 (by omega)) (fun k2 h2 => hd2 k2 (by omega))
        (by rw [swapIdx_length]; omega) hstep k hk1 hki
    · have hk3 : k = i + 1 := by omega
      rw [hk3]
      exact hjj

theorem perm_ext_head :
    ∀ (t l : List Nat), t.Perm l → (∀ k, 1 ≤ k → t.get? k = l.get? k) → t = l := by
  intro t
  cases t with
  | nil =>
    intro l hp _
    have := hp.length_eq
    cases l with
    | nil => rfl
    | cons b l2 => simp at this
  | cons a t2 =>
    intro l hp hg
    cases l with
    | nil => have := hp.length_eq; simp at this
    | cons b l2 =>
      have htails : t2 = l2 := by
        apply List.ext
        intro n
        have := hg (n + 1) (by omega)
        rw [List.get?_cons_succ, List.get?_cons_succ] at this
        exact this
      subst htails
      have hcount := hp.count_eq a
      rw [List.count_cons_self] at hcount
      rw [List.count_cons] at hcount
      have hab : b = a := by
        by_cases hba : b = a
        · exact hba
        · rw [if_neg (by simp [hba])] at hcount
          omega
      rw [hab]

theorem fyFrom_surj :
    ∀ (i : Nat) (l t : List Nat), l.Nodup → t.Perm l → (∀ k, i < k → t.get? k = l.get? k) →
      ∃ d : Nat → Nat, (∀ k, k ≤ i → d k ≤ k) ∧ fyFrom d i l = t
  | 0, l, t => by
    intro hnd hperm hhigh
    refine ⟨fun _ => 0, fun k hk => Nat.zero_le k, ?_⟩
    show l = t
    exact (perm_ext_head t l hperm (fun k hk => hhigh k (by omega))).symm
  | i + 1, l, t => by
    intro hnd hperm hhigh
    cases hv : t.get? (i + 1) with
    | none =>
      have hlt : t.length ≤ i + 1 := List.get?_eq_none.mp hv
      have hll : l.length ≤ i + 1 := by rw [← hperm.length_eq]; exact hlt
      obtain ⟨d0, hd0, heq⟩ := fyFrom_surj i l t hnd hperm (fun k hk => by
        by_cases hik : k = i + 1
        · subst hik
          rw [hv, List.get?_eq_none.mpr hll]
        · exact hhigh k (by omega))
      refine ⟨fun k => if k = i + 1 then i + 1 else d0 k, ?_, ?_⟩
      · intro k hk
        show (if k = i + 1 then i + 1 else d0 k) ≤ k
        by_cases hk2 : k = i + 1
        · rw [if_pos hk2]; omega
        · rw [if_neg hk2]; exact hd0 k (by omega)
      · show fyFrom _ i (swapIdx l (i + 1) (if i + 1 = i + 1 then i + 1 else d0 (i + 1))) = t
        rw [if_pos rfl]
        have hsw : swapIdx l (i + 1) (i + 1) = l := by
          unfold swapIdx
          rw [List.get?_eq_none.mpr hll]
        rw [hsw]
        rw [fyFrom_congr _ d0 i l (fun k2 h1 h2 => by rw [if_neg (by omega)])]
        exact heq
    | some v =>
      have hvt : v ∈ t := List.mem_iff_get?.mpr ⟨i + 1, hv⟩
      have hvl : v ∈ l := hperm.mem_iff.mp hvt
      obtain ⟨j, hj⟩ := List.mem_iff_get?.mp hvl
      have hjlen : j < l.length := by
        by_contra hge
        rw [List.get?_eq_none.mpr (by omega)] at hj
        exact absurd hj (by simp)
      have htlen : i + 1 < t.length := by
        by_contra hge
        rw [List.get?_eq_none.mpr (by omega)] at hv
        exact absurd hv (by simp)
      have hilen : i + 1 < l.length := by rw [← hperm.length_eq]; exact htlen
      have hnd_t : t.Nodup := List.Perm.nodup hperm.symm hnd
      have hble : j ≤ i + 1 := by
        by_contra hgt
        have hkj := hhigh j (by omega)
        have hinj : i + 1 = j := List.get?_inj htlen hnd_t (by rw [hv, hkj, hj])
        omega
      have hl2perm : (swapIdx l (i + 1) j).Perm l := swapIdx_perm l (i + 1) j
      have h21 : (swapIdx l (i + 1) j).get? (i + 1) = some v := by
        rw [swapIdx_get?_left l (i + 1) j hilen hjlen]
        exact hj
      have h2high : ∀ k, i < k → t.get? k = (swapIdx l (i + 1) j).get? k := by
        intro k hk
        by_cases hik : k = i + 1
        · subst hik
          rw [h21, hv]
        · rw [swapIdx_get?_other l (i + 1) j k (by omega) (by omega)]
          exact hhigh k (by omega)
      obtain ⟨d0, hd0, heq⟩ := fyFrom_surj i (swapIdx l (i + 1) j) t
        (List.Perm.nodup hl2perm.symm hnd) (hperm.trans hl2perm.symm) h2high
      refine ⟨fun k => if k = i + 1 then j else d0 k, ?_, ?_⟩
      · intro k hk
        show (if k = i + 1 then j else d0 k) ≤ k
        by_cases hk2 : k = i + 1
        · rw [if_pos hk2]; omega
        · rw [if_neg hk2]; exact hd0 k (by omega)
      · show fyFrom _ i (swapIdx l (i + 1) (if i + 1 = i + 1 then j else d0 (i + 1))) = t
        rw [if_pos rfl]
        rw [fyFrom_congr _ d0 i (swapIdx l (i + 1) j) (fun k2 h1 h2 => by rw [if_neg (by omega)])]
        exact heq

theorem fyMap_perm (n : Nat) (ds : drawSpace n) : (fyMap n ds).Perm (List.range n) :=
  fyFrom_perm _ _ _

theorem drawFun_le (n : Nat) (ds : drawSpace n) : ∀ k, drawFun n ds k ≤ k := by
  intro k
  unfold drawFun
  by_cases h : k < n
  · rw [dif_pos h]
    have hlt := (ds ⟨k, h⟩).isLt
    have hv : (⟨k, h⟩ : Fin n).val = k := rfl
    omega
  · rw [dif_neg h]
    omega

theorem fyMap_inj (n : Nat) : Function.Injective (fyMap n) := by
  intro ds ds2 heq
  funext i
  by_cases hi0 : i.val = 0
  · have h1 := (ds i).isLt
    have h2 := (ds2 i).isLt
    exact Fin.ext (by omega)
  · have hn := i.isLt
    have hmain := fyFrom_inj (drawFun n ds) (drawFun n ds2) (n - 1) (List.range n)
      (List.nodup_range n) (fun k _ => drawFun_le n ds k) (fun k _ => drawFun_le n ds2 k)
      (by rw [List.length_range]; omega) heq i.val (by omega) (by omega)
    unfold drawFun at hmain
    rw [dif_pos i.isLt, dif_pos i.isLt] at hmain
    have hfix : (⟨i.val, i.isLt⟩ : Fin n) = i := Fin.eta i i.isLt
    rw [hfix] at hmain
    exact Fin.ext hmain

theorem fyMap_surj (n : Nat) (t : List Nat) (ht : t.Perm (List.range n)) :
    ∃ ds : drawSpace n, fyMap n ds = t := by
  have hhigh : ∀ k, n - 1 < k → t.get? k = (List.range n).get? k := by
    intro k hk
    have h1 : t.get? k = none :=
      List.get?_eq_none.mpr (by rw [ht.length_eq, List.length_range]; omega)
    have h2 : (List.range n).get? k = none :=
      List.get?_eq_none.mpr (by rw [List.length_range]; omega)
    rw [h1, h2]
  obtain ⟨d, hd, heq⟩ := fyFrom_surj (n - 1) (List.range n) t (List.nodup_range n) ht hhigh
  refine ⟨fun i => ⟨d i.val, ?_⟩, ?_⟩
  · have hlt := i.isLt
    have := hd i.val (by omega)
    omega
  · unfold fyMap
    rw [fyFrom_congr _ d (n - 1) (List.range n) (fun k h1 h2 => by
      have hkn : k < n := by omega
      unfold drawFun
      rw [dif_pos hkn])]
    exact heq

theorem fisherYates_eq_fyMap (σ : Nat → Nat) (n : Nat) :
    fisherYates σ (List.range n) =
      fyMap n (fun i => ⟨σ i.val % (i.val + 1), Nat.mod_lt _ (Nat.succ_pos _)⟩) := by
  unfold fisherYates fyMap
  rw [List.length_range]
  apply fyFrom_congr
  intro k h1 h2
  unfold drawFun
  have hkn : k < n := by omega
  rw [dif_pos hkn]

theorem assignOrders_length :
    ∀ (ts : List Track) (ps : List Nat), (assignOrders ts ps).length = ts.length
  | [], _ => rfl
  | t :: ts2, ps => by
    show (assignOrders ts2 ps.tail).length + 1 = ts2.length + 1
    rw [assignOrders_length ts2 ps.tail]

theorem assignOrders_map_order :
    ∀ (ts : List Track) (ps : List Nat), ps.length = ts.length →
      (assignOrders ts ps).map Track.order = ps
  | [], ps, h => by
    have hps : ps = [] := List.length_eq_zero.mp (by rw [h]; rfl)
    subst hps
    rfl
  | t :: ts2, ps, h => by
    cases ps with
    | nil => simp at h
    | cons p ps2 =>
      show p :: (assignOrders ts2 ps2).map Track.order = p :: ps2
      rw [assignOrders_map_order ts2 ps2 (by simp at h; omega)]

theorem presentAlbum_order_perm (draw : Nat → Nat) (a : Album) :
    ((presentAlbum draw a).tracks.map Track.order).Perm
      (List.range (presentAlbum draw a).tracks.length) := by
  show ((assignOrders (sortTracks a.tracks)
      (fisherYates draw (List.range (sortTracks a.tracks).length))).map Track.order).Perm _
  have hps : (fisherYates draw (List.range (sortTracks a.tracks).length)).length =
      (sortTracks a.tracks).length := by
    rw [(fisherYates_perm draw _).length_eq, List.length_range]
  rw [assignOrders_map_order _ _ hps]
  have hlen : (assignOrders (sortTracks a.tracks)
      (fisherYates draw (List.range (sortTracks a.tracks).length))).length =
      (sortTracks a.tracks).length := assignOrders_length _ _
  rw [show (presentAlbum draw a).tracks = assignOrders (sortTracks a.tracks)
      (fisherYates draw (List.range (sortTracks a.tracks).length)) from rfl, hlen]
  exact fisherYates_perm draw _

def wEnv : Env := { folderPath := "p/".data, bucketName := "bkt".data, cloudFront := "cdn/".data }

def zTs : Nat → Nat := fun _ => 0

def zDraws : Nat → Nat → Nat := fun _ _ => 0

def wKeyA : Str := "p/X/01 - a.mp3".data

def wKeyB : Str := "p/X/02 - b.mp3".data

def wFn : Str := "Chill".data

def cexFolder : Str := "A - B - C".data

def strB : Str := "B".data

def strBC : Str := "B - C".data

def cexTrack : Str := "01 - Song. ".data

def cexSongDot : Str := "Song.".data

def cexSong : Str := "Song".data

def cexKey9 : Str := "p/9/x.mp3".data

def cexKey2 : Str := "p/2/y.mp3".data

def str2 : Str := "2".data

def str9 : Str := "9".data

/-- C1: every album of the /albums response carries `order` values that form
exactly the multiset `{0, ..., trackCount - 1}` - the assigned positions are a
permutation of `List.range` of the album's track count, whatever the random
draws, the time source and the listed keys were. -/
theorem claim_C1 (e : Env) (ts rnd : Nat → Nat) (draws : Nat → Nat → Nat)
    (keys : List Str) (a : Album) (ha : a ∈ formattedAlbums e ts rnd draws keys) :
    (a.tracks.map Track.order).Perm (List.range a.tracks.length) := by
  unfold formattedAlbums at ha
  obtain ⟨p, hp, rfl⟩ := List.mem_map.mp ha
  exact presentAlbum_order_perm (draws p.1) p.2

/-- C1 witness: the first album of a concrete two-track listing, with the
permutation property instantiated there. -/
theorem claim_C1_witness :
    (formattedAlbums wEnv zTs zTs zDraws [wKeyA, wKeyB]).headD defAlbum ∈
        formattedAlbums wEnv zTs zTs zDraws [wKeyA, wKeyB] ∧
      ((((formattedAlbums wEnv zTs zTs zDraws [wKeyA, wKeyB]).headD defAlbum).tracks.map
          Track.order).Perm
        (List.range
          ((formattedAlbums wEnv zTs zTs zDraws [wKeyA, wKeyB]).headD defAlbum).tracks.length)) :=
  ⟨by decide, claim_C1 wEnv zTs zTs zDraws [wKeyA, wKeyB] _ (by decide)⟩

/-- C2 counterexample: the folder name `A - B - C` yields artist `B` (the
second segment of the split on every occurrence), not `B - C` (the whole text
after the first separator) as the claim states. -/
theorem claim_C2_cex :
    (parseAlbumInfo cexFolder).2 = strB ∧ (parseAlbumInfo cexFolder).2 ≠ strBC := by decide

/-- C2 (amended): without the separator the folder name is kept whole with
artist `Unknown Artist`; with it, albumName is the trimmed text before the
first occurrence, and artist is the trimmed second segment - the text between
the first occurrence and the next one after it (the whole remainder when the
separator occurs only once). -/
theorem claim_C2_amended (s : Str) :
    (jsIncludes sepStr s = false → parseAlbumInfo s = (s, unknownArtist)) ∧
    (∀ a b, splitFirst sepStr s = some (a, b) →
      parseAlbumInfo s = (jsTrim a, jsTrim (firstSegAfter b))) := by
  constructor
  · intro h
    unfold parseAlbumInfo
    rw [h]
    simp
  · intro a b h
    unfold parseAlbumInfo
    have hinc : jsIncludes sepStr s = true := by unfold jsIncludes; rw [h]; rfl
    rw [if_pos hinc]
    have hsep : sepStr ≠ [] := by decide
    rw [jsSplit_cons sepStr s a b hsep h]
    unfold firstSegAfter
    cases hb : splitFirst sepStr b with
    | none =>
      rw [jsSplit_none sepStr b hb]
      rfl
    | some q =>
      rw [jsSplit_cons sepStr b q.1 q.2 hsep (by rw [hb])]
      rfl

/-- C3: a file name is cover-classified exactly when its lowercase form
contains `cover`, `.jpg`, `.jpeg` or `.png` as a substring anywhere; a
cover-classified key sets the album's coverUrl to the resolution of the key
and leaves the track list untouched; and after the whole grouping pass the
coverUrl is the resolution of the last cover-like key of that folder in
listing order. -/
theorem claim_C3 :
    (∀ fn : Str, isCover fn = true ↔
      (substrOf coverPat (fn.map Char.toLower) ∨ substrOf jpgPat (fn.map Char.toLower) ∨
        substrOf jpegPat (fn.map Char.toLower) ∨ substrOf pngPat (fn.map Char.toLower))) ∧
    (∀ (e : Env) (t r : Nat) (m : AlbumMap) (k a f : Str),
      keyParts e k = some (a, f) → isCover f = true →
        coverAt (processKey e t r m k) a = some (resolveUrl e k) ∧
          tracksAt (processKey e t r m k) a = tracksAt m a) ∧
    (∀ (e : Env) (ts rnd : Nat → Nat) (keys : List Str) (f : Str),
      coverAt (groupAlbums e ts rnd keys) f =
        Option.map (resolveUrl e) (keys.filter (keyCoverOf e f)).getLast?) := by
  refine ⟨?_, ?_, ?_⟩
  · intro fn
    unfold isCover
    simp only [Bool.or_eq_true]
    rw [jsIncludes_iff_substr, jsIncludes_iff_substr, jsIncludes_iff_substr,
      jsIncludes_iff_substr]
    tauto
  · intro e t r m k a f h hc
    exact pk_cover_self e t r m k a f h hc
  · intro e ts rnd keys f
    unfold groupAlbums
    rw [coverAt_groupFrom e ts rnd f keys 0 []]
    cases hl : (keys.filter (keyCoverOf e f)).getLast? with
    | none => rfl
    | some k2 => rfl

/-- C4 counterexample: for the file name `01 - Song. ` the code first trims
the matched remainder to `Song.` and then strips no extension (the final dot
has no characters after it), producing display name `Song.`, while the claim
("raw name is the remainder, strip from the last dot onward") predicts
`Song`. -/
theorem claim_C4_cex :
    (parseTrackFile cexTrack).1 = 1 ∧ (parseTrackFile cexTrack).2 = cexSongDot ∧
      (parseTrackFile cexTrack).2 ≠ cexSong := by decide

/-- C4 (amended): a matching name parses to (digits base 10, whitespace-TRIMMED
remainder) and a non-matching one to (0, full name); the display name strips a
trailing extension only when the last dot is followed by one or more
characters none of which is a dot or a slash (so a name ending in a bare dot
is kept unchanged), and a name with no dot is kept unchanged. -/
theorem claim_C4_amended :
    (∀ fn : Str, trackMatch fn = none → parseTrackFile fn = (0, extStrip fn)) ∧
    (∀ (fn d r : Str), trackMatch fn = some (d, r) →
      parseTrackFile fn = (natOfDigits d, extStrip (jsTrim r))) ∧
    (∀ (s t : Str), t ≠ [] → (∀ c ∈ t, ¬(c = '.' ∨ c = '/')) →
      extStrip (s ++ '.' :: t) = s) ∧
    (∀ s : Str, ¬('.' ∈ s) → extStrip s = s) := by
  refine ⟨?_, ?_, extStrip_ext, extStrip_no_dot⟩
  · intro fn h
    unfold parseTrackFile
    rw [h]
  · intro fn d r h
    unfold parseTrackFile
    rw [h]

/-- C5: the pre-randomization sort of an album's encounter-ordered track list
is a permutation of it, is sorted ascending by the parsed `order`, and is
stable - for every key value the tracks carrying it keep their relative
encounter order; the presenter applies exactly this sort before assigning the
shuffled positions. -/
theorem claim_C5 (l : List Track) :
    (sortTracks l).Perm l ∧
    List.Pairwise (fun a b => a.order ≤ b.order) (sortTracks l) ∧
    (∀ k, (sortTracks l).filter (fun t2 => decide (t2.order = k)) =
      l.filter (fun t2 => decide (t2.order = k))) ∧
    (∀ (draw : Nat → Nat) (a : Album), (presentAlbum draw a).tracks =
      assignOrders (sortTracks a.tracks)
        (fisherYates draw (List.range (sortTracks a.tracks).length))) :=
  ⟨sortByKey_perm Track.order l, sortByKey_pairwise Track.order l,
    fun k => sortByKey_filter Track.order k l, fun _ _ => rfl⟩

/-- C6 counterexample: with folders `9` then `2` (array-index-like names) the
response lists album `2` before album `9`, while the first-encounter order of
the grouping map is `9` then `2` - the JS own-property order sorts
integer-like keys numerically ahead of insertion order. -/
theorem claim_C6_cex :
    (formattedAlbums wEnv zTs zTs zDraws [cexKey9, cexKey2]).map Album.albumName =
        [str2, str9] ∧
      dedupFirst ([cexKey9, cexKey2].filterMap
        (fun k => Option.map Prod.fst (keyParts wEnv k))) = [str9, str2] ∧
      ([str2, str9] : List Str) ≠ [str9, str2] := by decide

/-- C6 (amended): the grouping map's key sequence is the first-encounter order
of the folder names; the response presents `Object.values` of that map, which
lists albums whose folder names are canonical array-index strings first in
ascending numeric order and the remaining albums in first-encounter order
(exactly first-encounter order whenever no folder name is array-index-like);
the response count is the number of albums. -/
theorem claim_C6_amended (e : Env) (ts rnd : Nat → Nat) (draws : Nat → Nat → Nat)
    (keys : List Str) :
    mapKeys (groupAlbums e ts rnd keys) =
        dedupFirst (keys.filterMap (fun k => Option.map Prod.fst (keyParts e k))) ∧
      formattedAlbums e ts rnd draws keys =
        (List.enum (objectValues (groupAlbums e ts rnd keys))).map
          (fun p => presentAlbum (draws p.1) p.2) ∧
      List.Pairwise (fun p q => natOfDigits p.1 ≤ natOfDigits q.1)
        (sortByKey (fun p => natOfDigits p.1)
          ((groupAlbums e ts rnd keys).filter (fun p => isArrayIndexKey p.1))) ∧
      ((∀ s ∈ mapKeys (groupAlbums e ts rnd keys), isArrayIndexKey s = false) →
        objectValues (groupAlbums e ts rnd keys) =
          (groupAlbums e ts rnd keys).map Prod.snd) ∧
      (albumsHandler true e ts rnd draws (Except.ok keys)).count =
        some (formattedAlbums e ts rnd draws keys).length := by
  refine ⟨?_, rfl, sortByKey_pairwise _ _, ?_, ?_⟩
  · unfold groupAlbums
    rw [mapKeys_groupFrom]
    rfl
  · intro hnone
    unfold objectValues
    have h1 : (groupAlbums e ts rnd keys).filter (fun p => isArrayIndexKey p.1) = [] :=
      List.filter_eq_nil.mpr (fun p hp => by
        have := hnone p.1 (List.mem_map.mpr ⟨p, hp, rfl⟩)
        simp [this])
    have h2 : (groupAlbums e ts rnd keys).filter (fun p => !isArrayIndexKey p.1) =
        groupAlbums e ts rnd keys :=
      List.filter_eq_self.mpr (fun p hp => by
        have := hnone p.1 (List.mem_map.mpr ⟨p, hp, rfl⟩)
        simp [this])
    rw [h1, h2]
    rfl
  · rfl

/-- C7: the shuffle of `[0, ..., n-1]` is the Fisher-Yates pass determined by
the draw sequence (j at step i lying in [0, i]); that pass, as a map from
draw sequences to lists, is injective, and its image is exactly the
permutations of `[0, ..., n-1]` - so with a uniform draw source every one of
the n! orderings is reached by exactly one draw sequence. -/
theorem claim_C7 :
    (∀ (σ : Nat → Nat) (n : Nat),
      fisherYates σ (List.range n) =
        fyMap n (fun i => ⟨σ i.val % (i.val + 1), Nat.mod_lt _ (Nat.succ_pos _)⟩)) ∧
    (∀ n : Nat, Function.Injective (fyMap n)) ∧
    (∀ (n : Nat) (t : List Nat), t.Perm (List.range n) ↔ ∃ ds : drawSpace n, fyMap n ds = t) :=
  ⟨fisherYates_eq_fyMap, fyMap_inj, fun n t =>
    ⟨fyMap_surj n t, fun hex => by
      obtain ⟨ds, hds⟩ := hex
      rw [← hds]
      exact fyMap_perm n ds⟩⟩

/-- C8: a failure response always has success false and carries no albums or
count field; a request with unverified credentials is answered with the fixed
"not configured" 500 body without consulting the listing at all; a listing
error is mapped by its code - NoSuchBucket to 404 naming the bucket,
AccessDenied to 403 naming the bucket, CredentialsError to 401,
NetworkingError to 503, and anything else to 500 with the error's message and
code passed through. -/
theorem claim_C8 :
    (∀ (e : Env) (ts rnd : Nat → Nat) (draws : Nat → Nat → Nat)
        (l1 l2 : Except JsError (List Str)),
      albumsHandler false e ts rnd draws l1 = albumsHandler false e ts rnd draws l2) ∧
    (∀ (e : Env) (ts rnd : Nat → Nat) (draws : Nat → Nat → Nat)
        (l : Except JsError (List Str)),
      albumsHandler false e ts rnd draws l =
        { status := 500, success := false, albums := none, count := none
        , error := some notConfiguredMsg, errCode := none }) ∧
    (∀ (e : Env) (ts rnd : Nat → Nat) (draws : Nat → Nat → Nat) (err : JsError),
      albumsHandler true e ts rnd draws (Except.error err) = handleS3Error e err) ∧
    (∀ (e : Env) (err : JsError),
      (handleS3Error e err).success = false ∧ (handleS3Error e err).albums = none ∧
        (handleS3Error e err).count = none) ∧
    (∀ (e : Env) (err : JsError), err.errCode = codeNoSuchBucket →
      handleS3Error e err =
          { status := 404, success := false, albums := none, count := none
          , error := some (noBucketMsg e), errCode := none } ∧
        substrOf e.bucketName (noBucketMsg e)) ∧
    (∀ (e : Env) (err : JsError), err.errCode = codeAccessDenied →
      handleS3Error e err =
          { status := 403, success := false, albums := none, count := none
          , error := some (deniedMsg e), errCode := none } ∧
        substrOf e.bucketName (deniedMsg e)) ∧
    (∀ (e : Env) (err : JsError), err.errCode = codeCredentials →
      handleS3Error e err =
        { status := 401, success := false, albums := none, count := none
        , error := some credInvalidMsg, errCode := none }) ∧
    (∀ (e : Env) (err : JsError), err.errCode = codeNetworking →
      handleS3Error e err =
        { status := 503, success := false, albums := none, count := none
        , error := some netMsg, errCode := none }) ∧
    (∀ (e : Env) (err : JsError),
      err.errCode ≠ codeNoSuchBucket → err.errCode ≠ codeAccessDenied →
        err.errCode ≠ codeCredentials → err.errCode ≠ codeNetworking →
        handleS3Error e err =
          { status := 500, success := false, albums := none, count := none
          , error := some err.message, errCode := some err.errCode }) := by
  refine ⟨fun e ts rnd draws l1 l2 => rfl, fun e ts rnd draws l => rfl,
    fun e ts rnd draws err => rfl, ?_, ?_, ?_, ?_, ?_, ?_⟩
  · intro e err
    unfold handleS3Error
    split_ifs <;> exact ⟨rfl, rfl, rfl⟩
  · intro e err h
    unfold handleS3Error
    rw [if_pos h]
    refine ⟨rfl, "Bucket ".data ++ [apos], apos :: " does not exist.".data, ?_⟩
    simp [noBucketMsg]
  · intro e err h
    unfold handleS3Error
    rw [if_neg (by rw [h]; decide), if_pos h]
    refine ⟨rfl, "Access denied to bucket ".data ++ [apos],
      apos :: ". Check your IAM permissions.".data, ?_⟩
    simp [deniedMsg]
  · intro e err h
    unfold handleS3Error
    rw [if_neg (by rw [h]; decide), if_neg (by rw [h]; decide), if_pos h]
  · intro e err h
    unfold handleS3Error
    rw [if_neg (by rw [h]; decide), if_neg (by rw [h]; decide),
      if_neg (by rw [h]; decide), if_pos h]
  · intro e err h1 h2 h3 h4
    unfold handleS3Error
    rw [if_neg h1, if_neg h2, if_neg h3, if_neg h4]

/-- C9: a key equal to the folder path itself, and any key whose
prefix-stripped relative path splits into fewer than two `/`-separated
segments, leaves the grouping map unchanged; a listing with no keys yields
the success body with empty albums and count 0. -/
theorem claim_C9 :
    (∀ (e : Env) (t r : Nat) (m : AlbumMap) (k : Str),
      k = e.folderPath ∨ (jsSplit slashStr (removeFirst e.folderPath k)).length < 2 →
        processKey e t r m k = m) ∧
    (∀ (e : Env) (ts rnd : Nat → Nat) (draws : Nat → Nat → Nat),
      albumsHandler true e ts rnd draws (Except.ok []) =
        { status := 200, success := true, albums := some [], count := some 0
        , error := none, errCode := none }) := by
  constructor
  · rintro e t r m k (rfl | hlen)
    · apply pk_skip
      unfold keyParts
      rw [if_pos rfl]
    · apply pk_skip
      unfold keyParts
      by_cases hk : k = e.folderPath
      · rw [if_pos hk]
      · rw [if_neg hk]
        cases hsp : jsSplit slashStr (removeFirst e.folderPath k) with
        | nil => rfl
        | cons x rest =>
          cases rest with
          | nil => rfl
          | cons y rest2 =>
            rw [hsp] at hlen
            simp at hlen
            omega
  · intro e ts rnd draws
    rfl

/-- C10: a folder-marker key (the prefix, a slash-free folder name, a
trailing slash, nothing more) passes the skip checks with an empty second
segment, which is not cover-classified; processing it appends to that folder's
album a track with empty display name, parsed number 0 and the marker key's
resolved URL, creating the album when absent. -/
theorem claim_C10 (e : Env) (t r : Nat) (m : AlbumMap) (fn : Str) (h : ¬('/' ∈ fn)) :
    keyParts e (markerKey e fn) = some (fn, []) ∧
    isCover [] = false ∧
    tracksAt (processKey e t r m (markerKey e fn)) fn =
      tracksAt m fn ++ [markerTrack e t r fn] ∧
    (markerTrack e t r fn).name = [] ∧
    (markerTrack e t r fn).order = 0 ∧
    (markerTrack e t r fn).url = resolveUrl e (markerKey e fn) ∧
    (findAlbum (processKey e t r m (markerKey e fn)) fn).isSome = true := by
  have hkp : keyParts e (markerKey e fn) = some (fn, []) := by
    unfold keyParts markerKey
    rw [if_neg ?hne]
    case hne =>
      intro he
      have hlen := congrArg List.length he
      rw [List.length_append, List.length_append] at hlen
      have hsl : slashStr.length = 1 := rfl
      omega
    rw [List.append_assoc, removeFirst_append, jsSplit_marker fn h]
  have hcov : isCover ([] : Str) = false := by decide
  have htr := pk_track_self e t r m (markerKey e fn) fn [] hkp hcov
  refine ⟨hkp, hcov, ?_, rfl, rfl, rfl, pk_isSome e t r m (markerKey e fn) fn [] hkp⟩
  rw [htr.1]
  rfl

/-- C10 witness: the marker key for the folder `Chill` under the concrete
environment, with every conjunct instantiated. -/
theorem claim_C10_witness :
    keyParts wEnv (markerKey wEnv wFn) = some (wFn, []) ∧
    isCover [] = false ∧
    tracksAt (processKey wEnv 0 0 [] (markerKey wEnv wFn)) wFn =
      tracksAt [] wFn ++ [markerTrack wEnv 0 0 wFn] ∧
    (markerTrack wEnv 0 0 wFn).name = [] ∧
    (markerTrack wEnv 0 0 wFn).order = 0 ∧
    (markerTrack wEnv 0 0 wFn).url = resolveUrl wEnv (markerKey wEnv wFn) ∧
    (findAlbum (processKey wEnv 0 0 [] (markerKey wEnv wFn)) wFn).isSome = true :=
  claim_C10 wEnv 0 0 [] wFn (by decide)
